import Mathlib

/-!
Shallow embedding of `src/qonnx/util/basic.py` (quantization-aware range
analysis, value sanitization, tensor generation and layout reshaping
utilities), together with theorems settling the specification claims.
Real-valued tensor entries are modelled as rationals; numpy arrays are
modelled as a shape plus a flat row-major entry function.
-/

/-- Embedding of numpy `.max()` over a flattened value list: `none` on the
empty list (numpy raises there), otherwise the greatest element. -/
def listMaxQ : List ℚ → Option ℚ
  | [] => none
  | a :: l =>
    match listMaxQ l with
    | none => some a
    | some m => some (max a m)

/-- Embedding of numpy `.min()` over a flattened value list. -/
def listMinQ : List ℚ → Option ℚ
  | [] => none
  | a :: l =>
    match listMinQ l with
    | none => some a
    | some m => some (min a m)

theorem listMaxQ_eq_none {l : List ℚ} (h : listMaxQ l = none) : l = [] := by
  cases l with
  | nil => rfl
  | cons a t => rw [listMaxQ] at h; cases ht : listMaxQ t <;> rw [ht] at h <;> simp at h

theorem listMinQ_eq_none {l : List ℚ} (h : listMinQ l = none) : l = [] := by
  cases l with
  | nil => rfl
  | cons a t => rw [listMinQ] at h; cases ht : listMinQ t <;> rw [ht] at h <;> simp at h

theorem listMaxQ_mem : ∀ {l : List ℚ} {m : ℚ}, listMaxQ l = some m → m ∈ l := by
  intro l
  induction l with
  | nil => intro m h; simp [listMaxQ] at h
  | cons a t ih =>
    intro m h
    rw [listMaxQ] at h
    cases ht : listMaxQ t with
    | none => rw [ht] at h; simp at h; simp [h]
    | some m0 =>
      rw [ht] at h; simp at h
      rcases le_total a m0 with hle | hle
      · rw [← h, max_eq_right hle]; exact List.mem_cons_of_mem _ (ih ht)
      · rw [← h, max_eq_left hle]; exact List.mem_cons_self _ _

theorem le_listMaxQ : ∀ {l : List ℚ} {m : ℚ}, listMaxQ l = some m → ∀ a ∈ l, a ≤ m := by
  intro l
  induction l with
  | nil => intro m h; simp
  | cons a t ih =>
    intro m h b hb
    rw [listMaxQ] at h
    cases ht : listMaxQ t with
    | none =>
      rw [ht] at h; simp at h
      have hnil : t = [] := listMaxQ_eq_none ht
      subst hnil; simp at hb
      exact le_of_eq (by rw [hb, h])
    | some m0 =>
      rw [ht] at h; simp at h; subst h
      rcases List.mem_cons.mp hb with hb | hb
      · rw [hb]; exact le_max_left _ _
      · exact le_trans (ih ht b hb) (le_max_right _ _)

theorem listMinQ_mem : ∀ {l : List ℚ} {m : ℚ}, listMinQ l = some m → m ∈ l := by
  intro l
  induction l with
  | nil => intro m h; simp [listMinQ] at h
  | cons a t ih =>
    intro m h
    rw [listMinQ] at h
    cases ht : listMinQ t with
    | none => rw [ht] at h; simp at h; simp [h]
    | some m0 =>
      rw [ht] at h; simp at h
      rcases le_total a m0 with hle | hle
      · rw [← h, min_eq_left hle]; exact List.mem_cons_self _ _
      · rw [← h, min_eq_right hle]; exact List.mem_cons_of_mem _ (ih ht)

theorem listMinQ_le : ∀ {l : List ℚ} {m : ℚ}, listMinQ l = some m → ∀ a ∈ l, m ≤ a := by
  intro l
  induction l with
  | nil => intro m h; simp
  | cons a t ih =>
    intro m h b hb
    rw [listMinQ] at h
    cases ht : listMinQ t with
    | none =>
      rw [ht] at h; simp at h
      have hnil : t = [] := listMinQ_eq_none ht
      subst hnil; simp at hb
      exact le_of_eq (by rw [hb, h])
    | some m0 =>
      rw [ht] at h; simp at h; subst h
      rcases List.mem_cons.mp hb with hb | hb
      · rw [hb]; exact min_le_left _ _
      · exact le_trans (min_le_right _ _) (ih ht b hb)

theorem listMaxQ_isSome {l : List ℚ} (h : l ≠ []) : ∃ m, listMaxQ l = some m := by
  cases l with
  | nil => exact absurd rfl h
  | cons a t => rw [listMaxQ]; cases listMaxQ t <;> exact ⟨_, rfl⟩

theorem listMinQ_isSome {l : List ℚ} (h : l ≠ []) : ∃ m, listMinQ l = some m := by
  cases l with
  | nil => exact absurd rfl h
  | cons a t => rw [listMinQ]; cases listMinQ t <;> exact ⟨_, rfl⟩

/-! ## RangeAnalyzer: `calculate_matvec_accumulator_range` and
`calculate_signed_dot_prod_range` from `qonnx/util/basic.py`. -/

/-- Column sum used for the max component: embedding of
`(matrix * np.where(matrix > 0, vec_dt.max(), vec_dt.min())).sum(axis=0)`
at output column `j` for a matrix of shape `(MW, MH)`. -/
def colSumMax (MW : ℕ) (A : ℕ → ℕ → ℚ) (vdmin vdmax : ℚ) (j : ℕ) : ℚ :=
  ∑ i ∈ Finset.range MW, A i j * (if 0 < A i j then vdmax else vdmin)

/-- Column sum used for the min component: embedding of
`(matrix * np.where(matrix > 0, vec_dt.min(), vec_dt.max())).sum(axis=0)`
at output column `j`. -/
def colSumMin (MW : ℕ) (A : ℕ → ℕ → ℚ) (vdmin vdmax : ℚ) (j : ℕ) : ℚ :=
  ∑ i ∈ Finset.range MW, A i j * (if 0 < A i j then vdmin else vdmax)

/-- Embedding of `calculate_matvec_accumulator_range(matrix, vec_dt)`:
the matrix of shape `(MW, MH)` is given by its entry function, the vector
datatype by its extremal values `vdmin`/`vdmax`.  Returns `none` when the
final `.max()`/`.min()` reductions run over an empty axis (numpy raises
there), and `some (acc_min, acc_max)` otherwise. -/
def calculate_matvec_accumulator_range (MW MH : ℕ) (A : ℕ → ℕ → ℚ)
    (vdmin vdmax : ℚ) : Option (ℚ × ℚ) :=
  match listMinQ ((List.range MH).map (colSumMin MW A vdmin vdmax)),
        listMaxQ ((List.range MH).map (colSumMax MW A vdmin vdmax)) with
  | some mn, some mx => some (mn, mx)
  | _, _ => none

/-- Modelled from the spec: the quantized-datatype capability interface as far
as the range analyzer consumes it (the datatype catalog `qonnx/core/datatype.py`
is outside the analyzed sources): extremal representable values `dmin`/`dmax`
and the `signed()` flag. -/
structure DTCap where
  dmin : ℚ
  dmax : ℚ
  signedF : Bool

/-- The four corner products `a_val * b_val * len` in the iteration order of
the source loop (`a_val in [dt_a.min(), dt_a.max()]` outer,
`b_val in [dt_b.min(), dt_b.max()]` inner). -/
def cornerProds (a b : DTCap) (len : ℚ) : List ℚ :=
  [a.dmin * b.dmin * len, a.dmin * b.dmax * len,
   a.dmax * b.dmin * len, a.dmax * b.dmax * len]

/-- Embedding of `calculate_signed_dot_prod_range(dt_a, dt_b, len)`: starting
from the sentinels `2**30` and `-(2**30)`, the loop keeps the least and the
greatest of the four corner products; the initial assertion on `signed()` is
modelled as the error branch. -/
def calculate_signed_dot_prod_range (a b : DTCap) (len : ℚ) :
    Except String (ℚ × ℚ) :=
  if a.signedF && b.signedF then
    .ok ((cornerProds a b len).foldl (fun m p => if p < m then p else m) (2 ^ 30),
         (cornerProds a b len).foldl (fun m p => if p > m then p else m) (-(2 ^ 30)))
  else .error "The input values are not both signed vectors."

theorem foldl_min_step (i : ℚ) (l : List ℚ) :
    l.foldl (fun m p => if p < m then p else m) i = l.foldl min i := by
  have h : (fun (m p : ℚ) => if p < m then p else m) = min := by
    funext m p
    rcases lt_or_le p m with hlt | hle
    · simp [hlt, min_eq_right (le_of_lt hlt)]
    · simp [not_lt.mpr hle, min_eq_left hle]
  rw [h]

theorem foldl_max_step (i : ℚ) (l : List ℚ) :
    l.foldl (fun m p => if p > m then p else m) i = l.foldl max i := by
  have h : (fun (m p : ℚ) => if p > m then p else m) = max := by
    funext m p
    rcases lt_or_le m p with hlt | hle
    · simp [hlt, max_eq_right (le_of_lt hlt)]
    · simp [not_lt.mpr hle, max_eq_left hle]
  rw [h]

theorem min_sentinel_absorb (S q1 q2 q3 q4 : ℚ) (h : q2 ≤ S) :
    min (min (min (min S q1) q2) q3) q4 = min (min q1 q2) (min q3 q4) := by
  rw [min_assoc (min (min S q1) q2) q3 q4, min_assoc S q1 q2,
      min_assoc S (min q1 q2) (min q3 q4)]
  exact min_eq_right (le_trans (le_trans (min_le_left _ _) (min_le_right q1 q2)) h)

theorem max_sentinel_absorb (S q1 q2 q3 q4 : ℚ) (h : S ≤ q1) :
    max (max (max (max S q1) q2) q3) q4 = max (max q1 q2) (max q3 q4) := by
  rw [max_assoc (max (max S q1) q2) q3 q4, max_assoc S q1 q2,
      max_assoc S (max q1 q2) (max q3 q4)]
  exact max_eq_right (le_trans (le_trans h (le_max_left q1 q2)) (le_max_left _ _))

theorem dot_prod_eval (a b : DTCap) (len : ℚ)
    (hsa : a.signedF = true) (hsb : b.signedF = true)
    (hna : a.dmin < 0) (hnb : b.dmin < 0) (hpb : 0 ≤ b.dmax)
    (hlen : 0 < len) :
    calculate_signed_dot_prod_range a b len =
      .ok (len * min (min (a.dmin * b.dmin) (a.dmin * b.dmax))
             (min (a.dmax * b.dmin) (a.dmax * b.dmax)),
           len * max (max (a.dmin * b.dmin) (a.dmin * b.dmax))
             (max (a.dmax * b.dmin) (a.dmax * b.dmax))) := by
  have h0 : a.dmin * b.dmax ≤ 0 := mul_nonpos_iff.mpr (Or.inr ⟨le_of_lt hna, hpb⟩)
  have hq2 : a.dmin * b.dmax * len ≤ 2 ^ 30 :=
    le_trans (mul_nonpos_iff.mpr (Or.inr ⟨h0, le_of_lt hlen⟩)) (by norm_num)
  have h1 : 0 ≤ a.dmin * b.dmin :=
    mul_nonneg_of_nonpos_of_nonpos (le_of_lt hna) (le_of_lt hnb)
  have hq1 : -(2 ^ 30 : ℚ) ≤ a.dmin * b.dmin * len :=
    le_trans (by norm_num) (mul_nonneg h1 (le_of_lt hlen))
  unfold calculate_signed_dot_prod_range cornerProds
  rw [hsa, hsb]
  simp only [Bool.and_self, if_true]
  rw [foldl_min_step, foldl_max_step]
  simp only [List.foldl_cons, List.foldl_nil]
  refine congrArg Except.ok (Prod.ext ?_ ?_)
  · rw [min_sentinel_absorb _ _ _ _ _ hq2,
        mul_min_of_nonneg _ _ (le_of_lt hlen),
        mul_min_of_nonneg _ _ (le_of_lt hlen),
        mul_min_of_nonneg _ _ (le_of_lt hlen)]
    ring_nf
  · rw [max_sentinel_absorb _ _ _ _ _ hq1,
        mul_max_of_nonneg _ _ (le_of_lt hlen),
        mul_max_of_nonneg _ _ (le_of_lt hlen),
        mul_max_of_nonneg _ _ (le_of_lt hlen)]
    ring_nf

/-- C2: for all signed datatypes `dt_a`, `dt_b` (which have a negative
minimum and a nonnegative maximum) and every positive length,
`calculate_signed_dot_prod_range` returns exactly the pair
`(length * minimum corner product, length * maximum corner product)` over the
four combinations of `{dt_a.min(), dt_a.max()} x {dt_b.min(), dt_b.max()}`,
and the result is symmetric under swapping the two datatypes. -/
theorem c2_signed_dot_prod_range (a b : DTCap) (len : ℚ)
    (hsa : a.signedF = true) (hsb : b.signedF = true)
    (hna : a.dmin < 0) (hpa : 0 ≤ a.dmax) (hnb : b.dmin < 0) (hpb : 0 ≤ b.dmax)
    (hlen : 0 < len) :
    calculate_signed_dot_prod_range a b len =
      .ok (len * min (min (a.dmin * b.dmin) (a.dmin * b.dmax))
             (min (a.dmax * b.dmin) (a.dmax * b.dmax)),
           len * max (max (a.dmin * b.dmin) (a.dmin * b.dmax))
             (max (a.dmax * b.dmin) (a.dmax * b.dmax))) ∧
    calculate_signed_dot_prod_range a b len =
      calculate_signed_dot_prod_range b a len := by
  have h1 := dot_prod_eval a b len hsa hsb hna hnb hpb hlen
  have h2 := dot_prod_eval b a len hsb hsa hnb hna hpa hlen
  refine ⟨h1, ?_⟩
  rw [h1, h2]
  refine congrArg Except.ok (Prod.ext ?_ ?_)
  · rw [min_min_min_comm (a.dmin * b.dmin)]
    ring_nf
  · rw [max_max_max_comm (a.dmin * b.dmin)]
    ring_nf

theorem term_le_whereMax {vdmin vdmax xi : ℚ} (a : ℚ)
    (h1 : vdmin ≤ xi) (h2 : xi ≤ vdmax) :
    xi * a ≤ a * (if 0 < a then vdmax else vdmin) := by
  rcases lt_or_le 0 a with hpos | hnp
  · rw [if_pos hpos, mul_comm a vdmax]
    exact mul_le_mul_of_nonneg_right h2 (le_of_lt hpos)
  · rw [if_neg (not_lt.mpr hnp), mul_comm a vdmin]
    exact mul_le_mul_of_nonpos_right h1 hnp

theorem whereMin_le_term {vdmin vdmax xi : ℚ} (a : ℚ)
    (h1 : vdmin ≤ xi) (h2 : xi ≤ vdmax) :
    a * (if 0 < a then vdmin else vdmax) ≤ xi * a := by
  rcases lt_or_le 0 a with hpos | hnp
  · rw [if_pos hpos, mul_comm a vdmin]
    exact mul_le_mul_of_nonneg_right h1 (le_of_lt hpos)
  · rw [if_neg (not_lt.mpr hnp), mul_comm a vdmax]
    exact mul_le_mul_of_nonpos_right h2 hnp

/-- C1: for a matrix of shape `(MW, MH)` with at least one output column and a
vector datatype with `min() <= max()`, `calculate_matvec_accumulator_range`
returns the pair whose max component is the maximum over output columns of
`sum_i A[i,j] * (dt.max() if A[i,j] > 0 else dt.min())`, whose min component is
the minimum over output columns of `sum_i A[i,j] * (dt.min() if A[i,j] > 0 else
dt.max())`, and this pair is the tightest worst-case bound on `x . A` over all
vectors `x` with every element in `[dt.min(), dt.max()]`. -/
theorem c1_matvec_accumulator_range (MW MH : ℕ) (A : ℕ → ℕ → ℚ) (vdmin vdmax : ℚ)
    (hdt : vdmin ≤ vdmax) (hMH : 0 < MH) :
    ∃ mn mx, calculate_matvec_accumulator_range MW MH A vdmin vdmax = some (mn, mx) ∧
      (∃ j, j < MH ∧ mx = colSumMax MW A vdmin vdmax j) ∧
      (∀ j, j < MH → colSumMax MW A vdmin vdmax j ≤ mx) ∧
      (∃ j, j < MH ∧ mn = colSumMin MW A vdmin vdmax j) ∧
      (∀ j, j < MH → mn ≤ colSumMin MW A vdmin vdmax j) ∧
      (∀ x : ℕ → ℚ, (∀ i, i < MW → vdmin ≤ x i ∧ x i ≤ vdmax) →
        ∀ j, j < MH → mn ≤ (∑ i ∈ Finset.range MW, x i * A i j) ∧
          (∑ i ∈ Finset.range MW, x i * A i j) ≤ mx) ∧
      (∃ x : ℕ → ℚ, (∀ i, i < MW → vdmin ≤ x i ∧ x i ≤ vdmax) ∧
        ∃ j, j < MH ∧ (∑ i ∈ Finset.range MW, x i * A i j) = mx) ∧
      (∃ x : ℕ → ℚ, (∀ i, i < MW → vdmin ≤ x i ∧ x i ≤ vdmax) ∧
        ∃ j, j < MH ∧ (∑ i ∈ Finset.range MW, x i * A i j) = mn) := by
  have hlenMin : ((List.range MH).map (colSumMin MW A vdmin vdmax)).length = MH := by
    simp
  have hlenMax : ((List.range MH).map (colSumMax MW A vdmin vdmax)).length = MH := by
    simp
  obtain ⟨mn, hmn⟩ := listMinQ_isSome (l := (List.range MH).map (colSumMin MW A vdmin vdmax))
    (List.ne_nil_of_length_pos (by rw [hlenMin]; exact hMH))
  obtain ⟨mx, hmx⟩ := listMaxQ_isSome (l := (List.range MH).map (colSumMax MW A vdmin vdmax))
    (List.ne_nil_of_length_pos (by rw [hlenMax]; exact hMH))
  have hmxMem : ∃ j, j < MH ∧ mx = colSumMax MW A vdmin vdmax j := by
    obtain ⟨j, hj, hcol⟩ := List.mem_map.mp (listMaxQ_mem hmx)
    exact ⟨j, List.mem_range.mp hj, hcol.symm⟩
  have hmnMem : ∃ j, j < MH ∧ mn = colSumMin MW A vdmin vdmax j := by
    obtain ⟨j, hj, hcol⟩ := List.mem_map.mp (listMinQ_mem hmn)
    exact ⟨j, List.mem_range.mp hj, hcol.symm⟩
  have hmxUB : ∀ j, j < MH → colSumMax MW A vdmin vdmax j ≤ mx := by
    intro j hj
    exact le_listMaxQ hmx _ (List.mem_map_of_mem _ (List.mem_range.mpr hj))
  have hmnLB : ∀ j, j < MH → mn ≤ colSumMin MW A vdmin vdmax j := by
    intro j hj
    exact listMinQ_le hmn _ (List.mem_map_of_mem _ (List.mem_range.mpr hj))
  refine ⟨mn, mx, ?_, hmxMem, hmxUB, hmnMem, hmnLB, ?_, ?_, ?_⟩
  · unfold calculate_matvec_accumulator_range
    rw [hmn, hmx]
  · intro x hx j hj
    constructor
    · refine le_trans (hmnLB j hj) ?_
      unfold colSumMin
      refine Finset.sum_le_sum ?_
      intro i hi
      exact whereMin_le_term (A i j) (hx i (Finset.mem_range.mp hi)).1
        (hx i (Finset.mem_range.mp hi)).2
    · refine le_trans ?_ (hmxUB j hj)
      unfold colSumMax
      refine Finset.sum_le_sum ?_
      intro i hi
      exact term_le_whereMax (A i j) (hx i (Finset.mem_range.mp hi)).1
        (hx i (Finset.mem_range.mp hi)).2
  · obtain ⟨j, hj, hcol⟩ := hmxMem
    refine ⟨fun i => if 0 < A i j then vdmax else vdmin, ?_, j, hj, ?_⟩
    · intro i _
      dsimp only
      split
      · exact ⟨hdt, le_refl _⟩
      · exact ⟨le_refl _, hdt⟩
    · rw [hcol]
      unfold colSumMax
      exact Finset.sum_congr rfl (fun i _ => mul_comm _ _)
  · obtain ⟨j, hj, hcol⟩ := hmnMem
    refine ⟨fun i => if 0 < A i j then vdmin else vdmax, ?_, j, hj, ?_⟩
    · intro i _
      dsimp only
      split
      · exact ⟨le_refl _, hdt⟩
      · exact ⟨hdt, le_refl _⟩
    · rw [hcol]
      unfold colSumMin
      exact Finset.sum_congr rfl (fun i _ => mul_comm _ _)

theorem c1_matvec_accumulator_range_witness :
    (0:ℚ) ≤ 1 ∧ 0 < 1 ∧
    (∃ mn mx, calculate_matvec_accumulator_range 1 1 (fun _ _ => (1:ℚ)) 0 1 = some (mn, mx) ∧
      (∃ j, j < 1 ∧ mx = colSumMax 1 (fun _ _ => (1:ℚ)) 0 1 j) ∧
      (∀ j, j < 1 → colSumMax 1 (fun _ _ => (1:ℚ)) 0 1 j ≤ mx) ∧
      (∃ j, j < 1 ∧ mn = colSumMin 1 (fun _ _ => (1:ℚ)) 0 1 j) ∧
      (∀ j, j < 1 → mn ≤ colSumMin 1 (fun _ _ => (1:ℚ)) 0 1 j) ∧
      (∀ x : ℕ → ℚ, (∀ i, i < 1 → 0 ≤ x i ∧ x i ≤ 1) →
        ∀ j, j < 1 → mn ≤ (∑ i ∈ Finset.range 1, x i * 1) ∧
          (∑ i ∈ Finset.range 1, x i * 1) ≤ mx) ∧
      (∃ x : ℕ → ℚ, (∀ i, i < 1 → 0 ≤ x i ∧ x i ≤ 1) ∧
        ∃ j, j < 1 ∧ (∑ i ∈ Finset.range 1, x i * 1) = mx) ∧
      (∃ x : ℕ → ℚ, (∀ i, i < 1 → 0 ≤ x i ∧ x i ≤ 1) ∧
        ∃ j, j < 1 ∧ (∑ i ∈ Finset.range 1, x i * 1) = mn)) :=
  ⟨by norm_num, by norm_num,
   c1_matvec_accumulator_range 1 1 (fun _ _ => (1:ℚ)) 0 1 (by norm_num) (by norm_num)⟩

theorem c2_signed_dot_prod_range_witness :
    calculate_signed_dot_prod_range ⟨-2, 1, true⟩ ⟨-1, 3, true⟩ 4 =
      .ok (4 * min (min ((-2 : ℚ) * (-1)) ((-2) * 3)) (min (1 * (-1)) (1 * 3)),
           4 * max (max ((-2 : ℚ) * (-1)) ((-2) * 3)) (max (1 * (-1)) (1 * 3))) ∧
    calculate_signed_dot_prod_range ⟨-2, 1, true⟩ ⟨-1, 3, true⟩ 4 =
      calculate_signed_dot_prod_range ⟨-1, 3, true⟩ ⟨-2, 1, true⟩ 4 :=
  c2_signed_dot_prod_range ⟨-2, 1, true⟩ ⟨-1, 3, true⟩ 4 rfl rfl
    (by norm_num) (by norm_num) (by norm_num) (by norm_num) (by norm_num)

/-! ## Sanitizer: `sanitize_quant_values` and `get_execution_error_thresh`
from `qonnx/util/basic.py`. -/

/-- Embedding of `np.round` on a rational value: round half to even (numpy
banker rounding), returning the rounded integer as a rational. -/
def npRound (q : ℚ) : ℚ :=
  if q - ⌊q⌋ = 1 / 2 then
    (if ⌊q⌋ % 2 = 0 then ((⌊q⌋ : ℤ) : ℚ) else ((⌊q⌋ + 1 : ℤ) : ℚ))
  else ((round q : ℤ) : ℚ)

/-- Modelled from the spec: the datatype capability as the sanitizer consumes
it (the datatype catalog `qonnx/core/datatype.py` is outside the analyzed
sources): the `is_integer()` flag and the elementwise membership test
`allowed`. -/
structure IntDT where
  is_integer : Bool
  allowed : ℚ → Bool

/-- The failure conditions `sanitize_quant_values` can raise: the two
explicit exceptions of the source, and the `ValueError` that python's
`max()` raises on an empty value array. -/
inductive SanErr where
  | roundingTooLarge
  | stillNotRepresentable
  | valueError
deriving DecidableEq

/-- Embedding of `get_execution_error_thresh()`: the `ERROR_THRESH`
environment override when set, else the default `1e-2`. -/
def get_execution_error_thresh (env : Option ℚ) : ℚ := env.getD (1 / 100)

/-- Embedding of `max(np.abs(current_values - updated_values).flatten())`:
`none` when the array is empty (python raises `ValueError` there). -/
def maxAbsDiff (orig upd : List ℚ) : Option ℚ :=
  listMaxQ ((orig.zip upd).map (fun p => |p.1 - p.2|))

/-- The `updated_values` computed by the loop body of
`sanitize_quant_values`: the original values when they are all allowed,
their rounding otherwise. -/
def sanitizeUpdated (dt : IntDT) (vals : List ℚ) : List ℚ :=
  if vals.all dt.allowed then vals else vals.map npRound

/-- Embedding of one iteration of the per-tensor loop body of
`sanitize_quant_values` (from reading `execution_context[tensor_name]` to
writing it back or raising). -/
def sanitize_tensor (dt : IntDT) (vals : List ℚ) (check_values : Bool)
    (thresh : ℚ) : Except SanErr (List ℚ) :=
  if dt.is_integer = false then .ok vals
  else
    match maxAbsDiff vals (sanitizeUpdated dt vals) with
    | none => .error .valueError
    | some maxError =>
      if maxError ≤ thresh then
        if check_values then
          if (sanitizeUpdated dt vals).all dt.allowed then .ok (sanitizeUpdated dt vals)
          else .error .stillNotRepresentable
        else .ok (sanitizeUpdated dt vals)
      else .error .roundingTooLarge

/-- Embedding of `sanitize_quant_values(model, node_tensors,
execution_context, check_values)`: the model's datatype annotations are the
lookup `dts`, the execution context is a map from tensor names to value
lists, updated tensor by tensor in order. -/
def sanitize_quant_values (dts : String → IntDT) (node_tensors : List String)
    (ctx : String → List ℚ) (check_values : Bool) (thresh : ℚ) :
    Except SanErr (String → List ℚ) :=
  match node_tensors with
  | [] => .ok ctx
  | name :: rest =>
    match sanitize_tensor (dts name) (ctx name) check_values thresh with
    | .error e => .error e
    | .ok v => sanitize_quant_values dts rest (Function.update ctx name v) check_values thresh

theorem npRound_intCast (n : ℤ) : npRound (n : ℚ) = (n : ℚ) := by
  unfold npRound
  simp only [Int.floor_intCast, sub_self]
  rw [if_neg (by norm_num), round_intCast]

theorem npRound_isInt (q : ℚ) : ∃ n : ℤ, npRound q = (n : ℚ) := by
  unfold npRound
  split
  · split
    · exact ⟨⌊q⌋, rfl⟩
    · exact ⟨⌊q⌋ + 1, rfl⟩
  · exact ⟨round q, rfl⟩

theorem npRound_idem (q : ℚ) : npRound (npRound q) = npRound q := by
  obtain ⟨n, hn⟩ := npRound_isInt q
  rw [hn, npRound_intCast]

theorem maxAbsDiff_self : ∀ {l : List ℚ}, l ≠ [] → maxAbsDiff l l = some 0 := by
  intro l
  induction l with
  | nil => intro h; exact absurd rfl h
  | cons a t ih =>
    intro _
    unfold maxAbsDiff at *
    cases t with
    | nil => simp [listMaxQ]
    | cons b u =>
      have h2 := ih (by simp)
      simp only [List.zip_cons_cons, List.map_cons] at h2 ⊢
      rw [listMaxQ, h2]
      simp

theorem maxAbsDiff_nonneg {a b : List ℚ} {e : ℚ} (h : maxAbsDiff a b = some e) :
    0 ≤ e := by
  unfold maxAbsDiff at h
  obtain ⟨p, _, he⟩ := List.mem_map.mp (listMaxQ_mem h)
  rw [← he]
  exact abs_nonneg _

theorem maxAbsDiff_same_len {a b : List ℚ} (hlen : b.length = a.length)
    (h : a ≠ []) : ∃ e, maxAbsDiff a b = some e := by
  unfold maxAbsDiff
  apply listMaxQ_isSome
  refine List.ne_nil_of_length_pos ?_
  rw [List.length_map, List.length_zip, hlen, min_self]
  exact List.length_pos.mpr h

theorem sanitizeUpdated_length (dt : IntDT) (vals : List ℚ) :
    (sanitizeUpdated dt vals).length = vals.length := by
  unfold sanitizeUpdated
  split <;> simp

theorem sanitizeUpdated_idem (dt : IntDT) (vals : List ℚ) :
    sanitizeUpdated dt (sanitizeUpdated dt vals) = sanitizeUpdated dt vals := by
  unfold sanitizeUpdated
  by_cases h1 : vals.all dt.allowed
  · rw [if_pos h1, if_pos h1]
  · rw [if_neg h1]
    split
    · rfl
    · rw [List.map_map]
      have hc : npRound ∘ npRound = npRound := funext npRound_idem
      rw [hc]

theorem sanitize_tensor_ne_nil {dt : IntDT} {vals out : List ℚ} {c : Bool} {t : ℚ}
    (hint : ¬dt.is_integer = false)
    (h : sanitize_tensor dt vals c t = .ok out) : vals ≠ [] := by
  intro hnil
  subst hnil
  unfold sanitize_tensor at h
  rw [if_neg hint] at h
  have hU : sanitizeUpdated dt [] = [] := by unfold sanitizeUpdated; split <;> simp
  rw [hU] at h
  simp [maxAbsDiff, listMaxQ] at h

theorem sanitize_tensor_fixpoint {dt : IntDT} {vals out : List ℚ}
    {check_values : Bool} {thresh : ℚ}
    (h : sanitize_tensor dt vals check_values thresh = .ok out) :
    sanitize_tensor dt out check_values thresh = .ok out := by
  by_cases hint : dt.is_integer = false
  · unfold sanitize_tensor
    rw [if_pos hint]
  · have hvne : vals ≠ [] := sanitize_tensor_ne_nil hint h
    unfold sanitize_tensor at h ⊢
    rw [if_neg hint] at h ⊢
    cases hmd : maxAbsDiff vals (sanitizeUpdated dt vals) with
    | none => rw [hmd] at h; simp at h
    | some e =>
      rw [hmd] at h
      dsimp only at h
      by_cases hth : e ≤ thresh
      case neg => rw [if_neg hth] at h; simp at h
      case pos =>
        rw [if_pos hth] at h
        have h0 : (0:ℚ) ≤ thresh := le_trans (maxAbsDiff_nonneg hmd) hth
        have hout : out = sanitizeUpdated dt vals ∧
            (check_values = true → (sanitizeUpdated dt vals).all dt.allowed = true) := by
          cases check_values with
          | false =>
            simp only [Bool.false_eq_true, if_false] at h
            injection h with h
            exact ⟨h.symm, by intro hc; exact absurd hc (by simp)⟩
          | true =>
            simp only [if_true] at h
            by_cases hall : (sanitizeUpdated dt vals).all dt.allowed
            · rw [if_pos hall] at h
              injection h with h
              exact ⟨h.symm, fun _ => hall⟩
            · rw [if_neg hall] at h
              simp at h
        obtain ⟨hout1, hout2⟩ := hout
        have hidem : sanitizeUpdated dt out = out := by
          rw [hout1]; exact sanitizeUpdated_idem dt vals
        have hone : out ≠ [] := by
          intro hnil
          have := sanitizeUpdated_length dt vals
          rw [← hout1, hnil] at this
          exact hvne (List.eq_nil_of_length_eq_zero this.symm)
        rw [hidem, maxAbsDiff_self hone]
        dsimp only
        rw [if_pos h0]
        cases check_values with
        | false => simp
        | true =>
          have hallout : out.all dt.allowed = true := by
            rw [hout1]; exact hout2 rfl
          rw [if_pos rfl, if_pos hallout]

theorem sanitize_store_frame :
    ∀ {names : List String} {ctx ctx' : String → List ℚ} {dts : String → IntDT}
      {check_values : Bool} {thresh : ℚ},
      sanitize_quant_values dts names ctx check_values thresh = .ok ctx' →
      ∀ name, name ∉ names → ctx' name = ctx name := by
  intro names
  induction names with
  | nil =>
    intro ctx ctx' dts check_values thresh h name _
    unfold sanitize_quant_values at h
    injection h with h
    rw [← h]
  | cons n rest ih =>
    intro ctx ctx' dts check_values thresh h name hn
    unfold sanitize_quant_values at h
    cases hs : sanitize_tensor (dts n) (ctx n) check_values thresh with
    | error e => rw [hs] at h; simp at h
    | ok v =>
      rw [hs] at h
      dsimp only at h
      have h2 := ih h name (fun hm => hn (List.mem_cons_of_mem _ hm))
      have hne : name ≠ n := by
        intro he
        exact hn (by rw [he]; exact List.mem_cons_self _ _)
      rw [h2]
      exact Function.update_noteq hne _ _

theorem sanitize_store_touched :
    ∀ {names : List String} {ctx ctx' : String → List ℚ} {dts : String → IntDT}
      {check_values : Bool} {thresh : ℚ},
      sanitize_quant_values dts names ctx check_values thresh = .ok ctx' →
      ∀ name ∈ names,
        ∃ v, sanitize_tensor (dts name) v check_values thresh = .ok (ctx' name) := by
  intro names
  induction names with
  | nil => intro ctx ctx' dts check_values thresh _ name hmem; simp at hmem
  | cons n rest ih =>
    intro ctx ctx' dts check_values thresh h name hmem
    unfold sanitize_quant_values at h
    cases hs : sanitize_tensor (dts n) (ctx n) check_values thresh with
    | error e => rw [hs] at h; simp at h
    | ok v =>
      rw [hs] at h
      dsimp only at h
      by_cases hmr : name ∈ rest
      · exact ih h name hmr
      · have hne : name = n := by
          rcases List.mem_cons.mp hmem with h1 | h1
          · exact h1
          · exact absurd h1 hmr
        subst hne
        have hframe := sanitize_store_frame h name hmr
        rw [hframe, Function.update_same]
        exact ⟨ctx name, hs⟩

theorem sanitize_store_of_fixpoints :
    ∀ {names : List String} {ctx : String → List ℚ} {dts : String → IntDT}
      {check_values : Bool} {thresh : ℚ},
      (∀ name ∈ names,
        sanitize_tensor (dts name) (ctx name) check_values thresh = .ok (ctx name)) →
      sanitize_quant_values dts names ctx check_values thresh = .ok ctx := by
  intro names
  induction names with
  | nil => intro ctx dts check_values thresh _; rfl
  | cons n rest ih =>
    intro ctx dts check_values thresh hfix
    unfold sanitize_quant_values
    rw [hfix n (List.mem_cons_self _ _)]
    dsimp only
    rw [Function.update_eq_self]
    exact ih (fun name hm => hfix name (List.mem_cons_of_mem _ hm))

/-- C4 (amended): a second application of `sanitize_quant_values` to the
store produced by a successful first application, with the same arguments,
succeeds and returns that store unchanged.  (The original claim's
justification — that the second pass finds all values already allowed — only
holds with `check_values`; in general the second pass may round again, but
rounding is idempotent.) -/
theorem c4_sanitize_idempotent (dts : String → IntDT) (names : List String)
    (ctx ctx' : String → List ℚ) (check_values : Bool) (env : Option ℚ)
    (h : sanitize_quant_values dts names ctx check_values
      (get_execution_error_thresh env) = .ok ctx') :
    sanitize_quant_values dts names ctx' check_values
      (get_execution_error_thresh env) = .ok ctx' := by
  apply sanitize_store_of_fixpoints
  intro name hmem
  obtain ⟨v, hv⟩ := sanitize_store_touched h name hmem
  exact sanitize_tensor_fixpoint hv

/-- C4 counterexample: a store whose single tensor holds the exact integer 3
under an integer datatype that allows nothing is sanitized successfully
(rounding error 0), yet the resulting value is still not allowed — so the
second pass does NOT "find all values already allowed" as the claim states
(it rounds again, with the same result). -/
theorem c4_counterexample :
    ((sanitize_quant_values (fun _ => ⟨true, fun _ => false⟩) ["t"]
        (fun _ => [(3:ℚ)]) false (get_execution_error_thresh none)).toOption.map
          (fun c => c "t") = some [(3:ℚ)]) ∧
    ([(3:ℚ)].all (IntDT.mk true (fun _ => false)).allowed = false) := by
  have hr : npRound (3:ℚ) = 3 := by
    have h3 := npRound_intCast 3
    push_cast at h3
    exact h3
  have hupd : sanitizeUpdated ⟨true, fun _ => false⟩ [(3:ℚ)] = [(3:ℚ)] := by
    unfold sanitizeUpdated
    simp [hr]
  have hsan : sanitize_tensor ⟨true, fun _ => false⟩ [(3:ℚ)] false
      (get_execution_error_thresh none) = .ok [(3:ℚ)] := by
    unfold sanitize_tensor
    rw [if_neg (by simp), hupd, maxAbsDiff_self (by simp)]
    dsimp only
    rw [if_pos (by norm_num [get_execution_error_thresh])]
    simp
  constructor
  · unfold sanitize_quant_values
    rw [hsan]
    dsimp only
    unfold sanitize_quant_values
    simp
    exact ⟨fun _ => [(3:ℚ)], rfl, rfl⟩
  · rfl

theorem c4_sanitize_idempotent_witness :
    sanitize_quant_values (fun _ => ⟨true, fun _ => true⟩) ["t"]
      (Function.update (fun _ => [(2:ℚ)]) "t" [(2:ℚ)]) false
      (get_execution_error_thresh none) =
    .ok (Function.update (fun _ => [(2:ℚ)]) "t" [(2:ℚ)]) := by
  refine c4_sanitize_idempotent (fun _ => ⟨true, fun _ => true⟩) ["t"]
    (fun _ => [(2:ℚ)]) _ false none ?_
  have hupd : sanitizeUpdated ⟨true, fun _ => true⟩ [(2:ℚ)] = [(2:ℚ)] := by
    unfold sanitizeUpdated; simp
  have hsan : sanitize_tensor ⟨true, fun _ => true⟩ [(2:ℚ)] false
      (get_execution_error_thresh none) = .ok [(2:ℚ)] := by
    unfold sanitize_tensor
    rw [if_neg (by simp), hupd, maxAbsDiff_self (by simp)]
    dsimp only
    rw [if_pos (by norm_num [get_execution_error_thresh])]
    simp
  unfold sanitize_quant_values
  rw [hsan]
  dsimp only
  unfold sanitize_quant_values
  rfl

/-- C3: for an integer-annotated nonempty tensor whose values are not all
allowed, the sanitizer fails with the rounding-too-large condition exactly
when the maximum absolute difference between the values and their
round-to-nearest versions exceeds the configured threshold (default `1e-2`,
overridable through the environment); and a within-tolerance tensor that is
still not representable fails the strict re-check (when requested), not the
tolerance check. -/
theorem c3_sanitize_rounding_threshold (dt : IntDT) (vals : List ℚ)
    (check_values : Bool) (env : Option ℚ)
    (hint : dt.is_integer = true) (hna : vals.all dt.allowed = false)
    (hne : vals ≠ []) :
    ((sanitize_tensor dt vals check_values (get_execution_error_thresh env) =
        .error .roundingTooLarge) ↔
      (∃ e, maxAbsDiff vals (vals.map npRound) = some e ∧
        get_execution_error_thresh env < e)) ∧
    (∀ e, maxAbsDiff vals (vals.map npRound) = some e →
      e ≤ get_execution_error_thresh env → check_values = true →
      (vals.map npRound).all dt.allowed = false →
      sanitize_tensor dt vals check_values (get_execution_error_thresh env) =
        .error .stillNotRepresentable) := by
  have hintf : ¬dt.is_integer = false := by rw [hint]; simp
  have hupd : sanitizeUpdated dt vals = vals.map npRound := by
    unfold sanitizeUpdated; rw [hna]; simp
  obtain ⟨e0, he0⟩ :=
    maxAbsDiff_same_len (a := vals) (b := vals.map npRound) (by simp) hne
  constructor
  · constructor
    · intro hsan
      refine ⟨e0, he0, ?_⟩
      by_contra hc
      push_neg at hc
      unfold sanitize_tensor at hsan
      rw [if_neg hintf, hupd, he0] at hsan
      dsimp only at hsan
      rw [if_pos hc] at hsan
      cases check_values with
      | false => simp at hsan
      | true =>
        by_cases hall : (vals.map npRound).all dt.allowed
        · rw [if_pos rfl, if_pos hall] at hsan; simp at hsan
        · rw [if_pos rfl, if_neg hall] at hsan; simp at hsan
    · rintro ⟨e, he, hgt⟩
      have hee : e0 = e := Option.some.inj (he0.symm.trans he)
      unfold sanitize_tensor
      rw [if_neg hintf, hupd, he0]
      dsimp only
      rw [if_neg (not_le.mpr (hee ▸ hgt))]
  · intro e he hle hcv hnall
    unfold sanitize_tensor
    rw [if_neg hintf, hupd, he]
    dsimp only
    rw [if_pos hle, hcv, if_pos rfl, if_neg (by rw [hnall]; simp)]

theorem c3_sanitize_rounding_threshold_witness :
    ((sanitize_tensor ⟨true, fun q => decide (q = 0)⟩ [(1/200 : ℚ)] true
        (get_execution_error_thresh none) = .error .roundingTooLarge) ↔
      (∃ e, maxAbsDiff [(1/200 : ℚ)] ([(1/200 : ℚ)].map npRound) = some e ∧
        get_execution_error_thresh none < e)) ∧
    (∀ e, maxAbsDiff [(1/200 : ℚ)] ([(1/200 : ℚ)].map npRound) = some e →
      e ≤ get_execution_error_thresh none → true = true →
      ([(1/200 : ℚ)].map npRound).all (fun q => decide (q = 0)) = false →
      sanitize_tensor ⟨true, fun q => decide (q = 0)⟩ [(1/200 : ℚ)] true
        (get_execution_error_thresh none) = .error .stillNotRepresentable) :=
  c3_sanitize_rounding_threshold ⟨true, fun q => decide (q = 0)⟩ [(1/200 : ℚ)]
    true none rfl (by norm_num) (by simp)

/-- C5: a tensor whose datatype is not integer-like, or whose values all pass
the datatype's `allowed` test, is passed through unchanged and without
failure (for a nonempty tensor and a nonnegative threshold), and store
entries for names outside the processed tensor-name list are never
modified. -/
theorem c5_sanitize_frame :
    (∀ (dt : IntDT) (vals : List ℚ) (check_values : Bool) (thresh : ℚ),
      0 ≤ thresh → vals ≠ [] →
      (dt.is_integer = false ∨ vals.all dt.allowed = true) →
      sanitize_tensor dt vals check_values thresh = .ok vals) ∧
    (∀ (dts : String → IntDT) (names : List String) (ctx ctx' : String → List ℚ)
      (check_values : Bool) (thresh : ℚ),
      sanitize_quant_values dts names ctx check_values thresh = .ok ctx' →
      ∀ name, name ∉ names → ctx' name = ctx name) := by
  constructor
  · intro dt vals check_values thresh hth hne hcase
    by_cases hint : dt.is_integer = false
    · unfold sanitize_tensor; rw [if_pos hint]
    · have hall : vals.all dt.allowed = true := by
        rcases hcase with h | h
        · exact absurd h hint
        · exact h
      have hupd : sanitizeUpdated dt vals = vals := by
        unfold sanitizeUpdated; rw [hall]; simp
      unfold sanitize_tensor
      rw [if_neg hint, hupd, maxAbsDiff_self hne]
      dsimp only
      rw [if_pos hth]
      cases check_values with
      | false => simp
      | true => rw [if_pos rfl, if_pos hall]
  · intro dts names ctx ctx' check_values thresh h name hn
    exact sanitize_store_frame h name hn

theorem c5_sanitize_frame_witness :
    sanitize_tensor ⟨true, fun _ => true⟩ [(5:ℚ)] true 0 = .ok [(5:ℚ)] ∧
    ((fun _ => ([] : List ℚ)) "x" = (fun _ => ([] : List ℚ)) "x") :=
  ⟨c5_sanitize_frame.1 ⟨true, fun _ => true⟩ [(5:ℚ)] true 0 (le_refl 0)
    (by simp) (Or.inr rfl),
   c5_sanitize_frame.2 (fun _ => ⟨true, fun _ => true⟩) [] (fun _ => [])
    (fun _ => []) true 0 rfl "x" (by simp)⟩

/-! ## QuantizedTensorGenerator: `gen_finn_dt_tensor` from
`qonnx/util/basic.py`. -/

/-- The datatype kinds `gen_finn_dt_tensor` dispatches on, as a closed
variant type: bipolar, binary, the signed/unsigned integer kinds (with their
catalog `min()`/`max()`), ternary, fixed-point (with bit-width and scale
factor), the two float kinds, and everything else (which the generator
rejects). -/
inductive DTKind where
  | BIPOLAR
  | BINARY
  | TERNARY
  | INTK (dmin dmax : ℤ)
  | FIXEDK (bits : ℕ) (scale : ℚ)
  | FLOAT32
  | FLOAT16
  | UNSUPPORTED

/-- Modelled from the spec: `np.random.RandomState(seed).randint(lo, hi,
size=n)`, a deterministic seeded stream of `n` integers drawn from the
half-open interval `[lo, hi)`.  The spec fixes only determinism in the seed
and membership in the interval, not the concrete distribution, so the stream
is a simple seeded congruential mix. -/
def randint (seed : ℕ) (lo hi : ℤ) (n : ℕ) : List ℤ :=
  (List.range n).map fun i => lo + ((seed + 7 * i : ℕ) : ℤ) % (hi - lo)

/-- Modelled from the spec: `RandomState(seed).randn(*shape)`, a
deterministic seeded stream of standard-normal draws (distribution not
fixed by the spec). -/
def randnStream (seed : ℕ) (n : ℕ) : List ℚ :=
  (List.range n).map fun i => ((seed + 7 * i : ℕ) : ℚ)

/-- Modelled from the spec: `RandomState(seed).uniform(lo, hi, size=n)`, a
deterministic seeded stream of draws within `[lo, hi]` (distribution not
fixed by the spec). -/
def uniformStream (seed : ℕ) (lo hi : ℚ) (n : ℕ) : List ℚ :=
  (List.range n).map fun i => lo + (hi - lo) * (((seed + 7 * i) % 100 : ℕ) : ℚ) / 100

/-- Embedding of `gen_finn_dt_tensor(finn_dt, tensor_shape, rmin, rmax,
seed)`: the shape is flattened to its element count `n`, the seeded
RandomState to the modelled streams.  Bipolar draws 0/1 and maps to `2*v-1`;
binary draws 0/1; integer and ternary kinds draw from `[rmin ?? min(),
rmax ?? max()+1)`; fixed-point draws over the plain-integer range of the same
bit-width and multiplies by the scale factor; the float kinds draw normal
(no bounds given) or uniform (bounds defaulted to -1.0/1.0); any other kind
raises `ValueError`, modelled as `none`.  The float container cast keeps the
values unchanged. -/
def gen_finn_dt_tensor (finn_dt : DTKind) (n : ℕ) (rmin rmax : Option ℤ)
    (seed : ℕ) : Option (List ℚ) :=
  match finn_dt with
  | .BIPOLAR => some ((randint seed 0 2 n).map fun v => ((2 * v - 1 : ℤ) : ℚ))
  | .BINARY => some ((randint seed 0 2 n).map fun v => ((v : ℤ) : ℚ))
  | .INTK dmin dmax =>
      some ((randint seed (rmin.getD dmin) (rmax.getD (dmax + 1)) n).map
        fun v => ((v : ℤ) : ℚ))
  | .TERNARY =>
      some ((randint seed (rmin.getD (-1)) (rmax.getD (1 + 1)) n).map
        fun v => ((v : ℤ) : ℚ))
  | .FIXEDK bits scale =>
      some ((randint seed (rmin.getD (-(2 ^ (bits - 1))))
        (rmax.getD (2 ^ (bits - 1) - 1 + 1)) n).map fun v => ((v : ℤ) : ℚ) * scale)
  | .FLOAT32 =>
      some (match rmin, rmax with
        | none, none => randnStream seed n
        | _, _ => uniformStream seed ((rmin.getD (-1) : ℤ) : ℚ)
            ((rmax.getD 1 : ℤ) : ℚ) n)
  | .FLOAT16 =>
      some (match rmin, rmax with
        | none, none => randnStream seed n
        | _, _ => uniformStream seed ((rmin.getD (-1) : ℤ) : ℚ)
            ((rmax.getD 1 : ℤ) : ℚ) n)
  | .UNSUPPORTED => none

/-- Modelled from the spec: the ambient process state holding python's global
pseudo-random generators.  `gen_finn_dt_tensor` constructs a local
`RandomState(seed)` and never touches the global one, so the embedding pairs
the pure result with the untouched world. -/
structure RandWorld where
  globalRandState : ℕ

/-- The generator as a state transformer over the ambient random state: it
reads nothing from the world and returns it unchanged. -/
def gen_finn_dt_tensor_with_world (finn_dt : DTKind) (n : ℕ)
    (rmin rmax : Option ℤ) (seed : ℕ) (w : RandWorld) :
    Option (List ℚ) × RandWorld :=
  (gen_finn_dt_tensor finn_dt n rmin rmax seed, w)

theorem randint_mem_range {seed : ℕ} {lo hi : ℤ} (hlt : lo < hi) {n : ℕ} :
    ∀ v ∈ randint seed lo hi n, lo ≤ v ∧ v < hi := by
  intro v hv
  unfold randint at hv
  obtain ⟨i, _, hvi⟩ := List.mem_map.mp hv
  have hnz : hi - lo ≠ 0 := by omega
  have hpos : (0:ℤ) < hi - lo := by omega
  have h1 := Int.emod_nonneg ((seed + 7 * i : ℕ) : ℤ) hnz
  have h2 := Int.emod_lt_of_pos ((seed + 7 * i : ℕ) : ℤ) hpos
  omega

/-- C7: the generator is a deterministic function of `(datatype, shape,
range_min, range_max, seed)`: two calls with identical arguments produce
identical outputs, the output does not depend on the ambient global random
state, and the global random state is left unchanged. -/
theorem c7_generator_deterministic (finn_dt : DTKind) (n : ℕ)
    (rmin rmax : Option ℤ) (seed : ℕ) (w w' : RandWorld) :
    gen_finn_dt_tensor finn_dt n rmin rmax seed =
      gen_finn_dt_tensor finn_dt n rmin rmax seed ∧
    (gen_finn_dt_tensor_with_world finn_dt n rmin rmax seed w).1 =
      (gen_finn_dt_tensor_with_world finn_dt n rmin rmax seed w').1 ∧
    (gen_finn_dt_tensor_with_world finn_dt n rmin rmax seed w).2 = w :=
  ⟨rfl, rfl, rfl⟩

/-- C6 (amended): for the integer and ternary kinds with explicit bounds
`(lo, hi)`, every generated element is an integer in `[lo, hi)` with the
upper bound exclusive; every bipolar element lies in `{-1, 1}` and every
binary element in `{0, 1}` (the bounds arguments being ignored by those two
kinds); the output value SET is contained in — not necessarily equal to —
those two-element sets. -/
theorem c6_generator_range :
    (∀ (dmin dmax lo hi : ℤ) (n seed : ℕ) (out : List ℚ),
      lo < hi →
      gen_finn_dt_tensor (.INTK dmin dmax) n (some lo) (some hi) seed = some out →
      ∀ q ∈ out, ∃ v : ℤ, q = (v : ℚ) ∧ lo ≤ v ∧ v < hi) ∧
    (∀ (lo hi : ℤ) (n seed : ℕ) (out : List ℚ),
      lo < hi →
      gen_finn_dt_tensor .TERNARY n (some lo) (some hi) seed = some out →
      ∀ q ∈ out, ∃ v : ℤ, q = (v : ℚ) ∧ lo ≤ v ∧ v < hi) ∧
    (∀ (rmin rmax : Option ℤ) (n seed : ℕ) (out : List ℚ),
      gen_finn_dt_tensor .BIPOLAR n rmin rmax seed = some out →
      ∀ q ∈ out, q = -1 ∨ q = 1) ∧
    (∀ (rmin rmax : Option ℤ) (n seed : ℕ) (out : List ℚ),
      gen_finn_dt_tensor .BINARY n rmin rmax seed = some out →
      ∀ q ∈ out, q = 0 ∨ q = 1) := by
  refine ⟨?_, ?_, ?_, ?_⟩
  · intro dmin dmax lo hi n seed out hlt hgen q hq
    unfold gen_finn_dt_tensor at hgen
    injection hgen with hgen
    rw [← hgen] at hq
    obtain ⟨v, hv, hvq⟩ := List.mem_map.mp hq
    have hrange := randint_mem_range hlt v hv
    exact ⟨v, hvq.symm, hrange.1, hrange.2⟩
  · intro lo hi n seed out hlt hgen q hq
    unfold gen_finn_dt_tensor at hgen
    injection hgen with hgen
    rw [← hgen] at hq
    obtain ⟨v, hv, hvq⟩ := List.mem_map.mp hq
    have hrange := randint_mem_range hlt v hv
    exact ⟨v, hvq.symm, hrange.1, hrange.2⟩
  · intro rmin rmax n seed out hgen q hq
    unfold gen_finn_dt_tensor at hgen
    injection hgen with hgen
    rw [← hgen] at hq
    obtain ⟨v, hv, hvq⟩ := List.mem_map.mp hq
    have hrange := randint_mem_range (by norm_num) v hv
    have hv01 : v = 0 ∨ v = 1 := by omega
    rcases hv01 with h | h <;> [left; right] <;> rw [← hvq, h] <;> norm_num
  · intro rmin rmax n seed out hgen q hq
    unfold gen_finn_dt_tensor at hgen
    injection hgen with hgen
    rw [← hgen] at hq
    obtain ⟨v, hv, hvq⟩ := List.mem_map.mp hq
    have hrange := randint_mem_range (by norm_num) v hv
    have hv01 : v = 0 ∨ v = 1 := by omega
    rcases hv01 with h | h <;> [left; right] <;> rw [← hvq, h] <;> norm_num

/-- C6 counterexample: a 1-element bipolar tensor has a single output value,
so the SET of its output values is not exactly `{-1, 1}` as the claim
states: here `1` never occurs. -/
theorem c6_counterexample :
    gen_finn_dt_tensor .BIPOLAR 1 none none 42 = some [(-1 : ℚ)] ∧
    ¬((1 : ℚ) ∈ [(-1 : ℚ)]) := by
  constructor
  · unfold gen_finn_dt_tensor randint
    norm_num [List.range_succ]
  · norm_num

theorem c6_generator_range_witness :
    (0:ℤ) < 2 ∧
    (∀ q ∈ [(0:ℚ), 1], ∃ v : ℤ, q = (v : ℚ) ∧ 0 ≤ v ∧ v < 2) :=
  ⟨by norm_num,
   c6_generator_range.1 0 5 0 2 2 0 [(0:ℚ), 1] (by norm_num)
     (by unfold gen_finn_dt_tensor randint; norm_num [List.range_succ])⟩

/-! ## LayoutReshaper: `interleave_matrix_outer_dim_from_partitions`,
`roundup_to_integer_multiple` and `pad_tensor_to_multiple_of` from
`qonnx/util/basic.py`. -/

/-- numpy storage dtypes as far as the float-container coercion inspects
them. -/
inductive NPDtype where
  | float32
  | float16
  | int64
  | other
deriving DecidableEq

/-- A python value passed to the reshaping utilities: whether it already is
an `np.ndarray`, its storage dtype, its shape, and its flat row-major entry
function (nested lists are carried in the same normal form). -/
structure PyArr where
  is_nd : Bool
  dtype : NPDtype
  shape : List ℕ
  entry : ℕ → ℚ

/-- Embedding of the container coercion
`if type(x) != np.ndarray or x.dtype not in [np.float32, np.float16]:
x = np.asarray(x, dtype=np.float32)` shared by both reshaping utilities.
Shape and values are preserved; the storage becomes a float32 ndarray. -/
def asarray_float (a : PyArr) : PyArr :=
  if a.is_nd = true ∧ (a.dtype = .float32 ∨ a.dtype = .float16) then a
  else ⟨true, .float32, a.shape, a.entry⟩

/-- numpy `transpose((1, 0, 2))` on a strided view of dims `(d1, d2, d3)`:
the output has dims `(d2, d1, d3)` and its flat entry at `(j, i, k)` is the
input's flat entry at `(i, j, k)`. -/
def transpose102 (d1 d2 d3 : ℕ) (f : ℕ → ℚ) : ℕ → ℚ :=
  fun n => f ((n / d3 % d1) * (d2 * d3) + (n / (d1 * d3)) * d3 + n % d3)

/-- Embedding of `interleave_matrix_outer_dim_from_partitions(matrix,
n_partitions)`: coerce to a float container, assert divisibility of the
outermost dimension and 2-dimensionality, then
`reshape(-1, n_partitions, shp[1]).transpose((1, 0, 2)).reshape(n_partitions,
-1, shp[1])` (the reshapes are identities on the flat data). -/
def interleave_matrix_outer_dim_from_partitions (a : PyArr) (p : ℕ) :
    Except String PyArr :=
  if (asarray_float a).shape.getD 0 0 % p ≠ 0 then
    .error "The outermost dimension is not divisable by the number of partitions."
  else if (asarray_float a).shape.length ≠ 2 then
    .error "The dimension of the matrix is not 2."
  else
    .ok ⟨true, (asarray_float a).dtype,
      [p, (asarray_float a).shape.getD 0 0 / p, (asarray_float a).shape.getD 1 0],
      transpose102 ((asarray_float a).shape.getD 0 0 / p) p
        ((asarray_float a).shape.getD 1 0) (asarray_float a).entry⟩

/-- Embedding of `roundup_to_integer_multiple(x, factor)`: `x` for factor
`-1` (before any positivity check), then the assertion `factor > 0 and
x > 0`, then the smallest-multiple arithmetic of the source. -/
def roundup_to_integer_multiple (x factor : ℤ) : Except String ℤ :=
  if factor = -1 then .ok x
  else if factor > 0 ∧ x > 0 then
    (if x < factor then .ok factor
     else if x % factor = 0 then .ok x
     else .ok (x + (factor - x % factor)))
  else .error "Factor and x are <= 0."

/-- Row-major coordinates of a flat index under a shape. -/
def unflattenIdx : List ℕ → ℕ → List ℕ
  | [], _ => []
  | _ :: ds, n => n / ds.prod :: unflattenIdx ds (n % ds.prod)

/-- Flat row-major index of a coordinate list under a shape. -/
def flattenIdx : List ℕ → List ℕ → ℕ
  | _ :: ds, c :: cs => c * ds.prod + flattenIdx ds cs
  | _, _ => 0

/-- The entry function of `np.pad(..., mode="constant", constant_values=val)`:
positions whose every coordinate falls inside the shifted copy of the
original array read the original entry, all others the fill value. -/
def padEntry (origShape before newShape : List ℕ) (val : ℚ) (f : ℕ → ℚ) :
    ℕ → ℚ :=
  fun n =>
    if (List.zip (unflattenIdx newShape n) (List.zip before origShape)).all
        (fun t => decide (t.2.1 ≤ t.1) && decide (t.1 < t.2.1 + t.2.2)) then
      f (flattenIdx origShape
        ((List.zip (unflattenIdx newShape n) before).map (fun t => t.1 - t.2)))
    else val

/-- The `map(lambda x: roundup_to_integer_multiple(x[0], x[1]), ...)` over
the zipped (current size, factor) pairs, propagating the first assertion
failure. -/
def mapRoundup : List (ℕ × ℤ) → Except String (List ℤ)
  | [] => .ok []
  | pr :: rest =>
    match roundup_to_integer_multiple (pr.1 : ℤ) pr.2 with
    | .error e => .error e
    | .ok y =>
      match mapRoundup rest with
      | .error e => .error e
      | .ok ys => .ok (y :: ys)

/-- Embedding of `pad_tensor_to_multiple_of(ndarray, pad_to_dims, val,
distr_pad)`: coerce to a float container, assert the factor list matches the
rank, compute the desired shape through `roundup_to_integer_multiple`, then
pad (all padding after the data, or split `pad_amt // 2` before and the rest
after when `distr_pad` is set).  The defensive shape post-condition of the
source holds by construction. -/
def pad_tensor_to_multiple_of (a : PyArr) (pad_to_dims : List ℤ) (val : ℚ)
    (distr_pad : Bool) : Except String PyArr :=
  if (asarray_float a).shape.length ≠ pad_to_dims.length then
    .error "The dimensions of the input array do not match the length of the pad_to_dims value."
  else
    match mapRoundup ((asarray_float a).shape.zip pad_to_dims) with
    | .error e => .error e
    | .ok desired =>
      .ok ⟨true, (asarray_float a).dtype, desired.map Int.toNat,
        padEntry (asarray_float a).shape
          (if distr_pad then
            ((desired.map Int.toNat).zip (asarray_float a).shape).map
              (fun pr => (pr.1 - pr.2) / 2)
          else
            ((desired.map Int.toNat).zip (asarray_float a).shape).map
              (fun _ => 0))
          (desired.map Int.toNat) val (asarray_float a).entry⟩

theorem asarray_float_shape (a : PyArr) : (asarray_float a).shape = a.shape := by
  unfold asarray_float; split <;> rfl

theorem asarray_float_entry (a : PyArr) : (asarray_float a).entry = a.entry := by
  unfold asarray_float; split <;> rfl

theorem roundup_neg1 (x : ℤ) : roundup_to_integer_multiple x (-1) = .ok x := by
  unfold roundup_to_integer_multiple
  rw [if_pos rfl]

theorem roundup_err {x f : ℤ} (hf : f ≠ -1) (h : f ≤ 0 ∨ x ≤ 0) :
    roundup_to_integer_multiple x f = .error "Factor and x are <= 0." := by
  unfold roundup_to_integer_multiple
  rw [if_neg hf, if_neg (by intro hc; omega)]

theorem roundup_ok_nonneg {x f y : ℤ} (hx : 0 ≤ x)
    (h : roundup_to_integer_multiple x f = .ok y) : 0 ≤ y := by
  unfold roundup_to_integer_multiple at h
  by_cases hf : f = -1
  · rw [if_pos hf] at h; injection h with h; omega
  · rw [if_neg hf] at h
    by_cases hpos : f > 0 ∧ x > 0
    · rw [if_pos hpos] at h
      by_cases h1 : x < f
      · rw [if_pos h1] at h; injection h with h; omega
      · rw [if_neg h1] at h
        by_cases h2 : x % f = 0
        · rw [if_pos h2] at h; injection h with h; omega
        · rw [if_neg h2] at h
          injection h with h
          have := Int.emod_lt_of_pos x (by omega : (0:ℤ) < f)
          omega
    · rw [if_neg hpos] at h; simp at h

theorem roundup_ok_least {x f y : ℤ} (hf : f ≠ -1)
    (h : roundup_to_integer_multiple x f = .ok y) :
    f ∣ y ∧ x ≤ y ∧ ∀ z : ℤ, f ∣ z → x ≤ z → y ≤ z := by
  unfold roundup_to_integer_multiple at h
  rw [if_neg hf] at h
  by_cases hpos : f > 0 ∧ x > 0
  case neg => rw [if_neg hpos] at h; simp at h
  case pos =>
    rw [if_pos hpos] at h
    obtain ⟨hfp, hxp⟩ := hpos
    by_cases h1 : x < f
    · rw [if_pos h1] at h
      injection h with h
      subst h
      refine ⟨dvd_refl f, le_of_lt h1, ?_⟩
      intro z hz hxz
      exact Int.le_of_dvd (lt_of_lt_of_le hxp hxz) hz
    · rw [if_neg h1] at h
      by_cases h2 : x % f = 0
      · rw [if_pos h2] at h
        injection h with h
        subst h
        exact ⟨Int.dvd_of_emod_eq_zero h2, le_refl x, fun z _ hxz => hxz⟩
      · rw [if_neg h2] at h
        injection h with h
        subst h
        have hmod0 : 0 ≤ x % f := Int.emod_nonneg x (by omega)
        have hmodlt : x % f < f := Int.emod_lt_of_pos x hfp
        have hxf : x - x % f = f * (x / f) := by
          have hdm := Int.ediv_add_emod x f
          omega
        refine ⟨?_, by omega, ?_⟩
        · have hy : x + (f - x % f) = f * (x / f + 1) := by
            rw [mul_add, mul_one, ← hxf]; ring
          rw [hy]
          exact dvd_mul_right f (x / f + 1)
        · intro z hz hxz
          have hdz : f ∣ (z - (x - x % f)) := by
            rw [hxf]
            exact dvd_sub hz (dvd_mul_right f (x / f))
          have hdpos : 0 < z - (x - x % f) := by omega
          have hge : f ≤ z - (x - x % f) := Int.le_of_dvd hdpos hdz
          omega

theorem transpose102_at (d1 d2 d3 : ℕ) (f : ℕ → ℚ) {b a c : ℕ}
    (_hb : b < d2) (ha : a < d1) (hc : c < d3) :
    transpose102 d1 d2 d3 f ((b * d1 + a) * d3 + c) = f ((a * d2 + b) * d3 + c) := by
  unfold transpose102
  have hd3 : 0 < d3 := lt_of_le_of_lt (Nat.zero_le c) hc
  have hd1 : 0 < d1 := lt_of_le_of_lt (Nat.zero_le a) ha
  have h1 : ((b * d1 + a) * d3 + c) % d3 = c := by
    have he : (b * d1 + a) * d3 + c = d3 * (b * d1 + a) + c := by ring
    rw [he, Nat.mul_add_mod, Nat.mod_eq_of_lt hc]
  have h2 : ((b * d1 + a) * d3 + c) / d3 = b * d1 + a := by
    have he : (b * d1 + a) * d3 + c = d3 * (b * d1 + a) + c := by ring
    rw [he, Nat.mul_add_div hd3, Nat.div_eq_of_lt hc, Nat.add_zero]
  have h3 : ((b * d1 + a) * d3 + c) / (d1 * d3) = b := by
    have he : (b * d1 + a) * d3 + c = (d1 * d3) * b + (a * d3 + c) := by ring
    have hlt : a * d3 + c < d1 * d3 := by
      calc a * d3 + c < a * d3 + d3 := by omega
        _ = (a + 1) * d3 := by ring
        _ ≤ d1 * d3 := Nat.mul_le_mul_right d3 ha
    rw [he, Nat.mul_add_div (Nat.mul_pos hd1 hd3), Nat.div_eq_of_lt hlt,
      Nat.add_zero]
  have h4 : ((b * d1 + a) * d3 + c) / d3 % d1 = a := by
    rw [h2, Nat.mul_comm b d1, Nat.mul_add_mod, Nat.mod_eq_of_lt ha]
  rw [h1, h3, h4]
  ring_nf

/-- C8: for a 2-dimensional matrix with `R` rows and `C` columns and a
partition count `p` that evenly divides `R`, the interleave places original
row `i` at partition `i % p`, position `i / p` within that partition: the
output entry at flat position `((i % p) * (R / p) + i / p) * C + c` is the
input entry of row `i`, column `c`.  (The claim's 4x2 example with `p = 2` is
the witness instance.) -/
theorem c8_interleave_row_mapping (a : PyArr) (p R C : ℕ) (out : PyArr)
    (hshape : a.shape = [R, C]) (hdvd : p ∣ R) (hp : 0 < p)
    (hok : interleave_matrix_outer_dim_from_partitions a p = .ok out) :
    out.shape = [p, R / p, C] ∧
    ∀ i c, i < R → c < C →
      out.entry (((i % p) * (R / p) + i / p) * C + c) = a.entry (i * C + c) := by
  have hsh : (asarray_float a).shape = [R, C] := by
    rw [asarray_float_shape, hshape]
  unfold interleave_matrix_outer_dim_from_partitions at hok
  rw [hsh] at hok
  simp only [List.getD_cons_zero, List.getD_cons_succ] at hok
  have hmod : R % p = 0 := by
    obtain ⟨k, rfl⟩ := hdvd
    exact Nat.mul_mod_right p k
  rw [if_neg (by simp [hmod]), if_neg (by simp)] at hok
  injection hok with hok
  subst hok
  refine ⟨rfl, ?_⟩
  intro i c hi hc
  have hb : i % p < p := Nat.mod_lt _ hp
  have ha : i / p < R / p := Nat.div_lt_div_of_lt_of_dvd hdvd hi
  have hkey := transpose102_at (R / p) p C (asarray_float a).entry hb ha hc
  dsimp only
  rw [hkey, asarray_float_entry]
  congr 2
  have : i / p * p + i % p = i := by
    rw [Nat.mul_comm]
    exact Nat.div_add_mod i p
  rw [this]

theorem c8_interleave_row_mapping_witness :
    (PyArr.mk true .float32 [2, 2, 2]
        (transpose102 2 2 2 (fun n => (n : ℚ)))).shape = [2, 4 / 2, 2] ∧
    ∀ i c, i < 4 → c < 2 →
      (PyArr.mk true .float32 [2, 2, 2]
          (transpose102 2 2 2 (fun n => (n : ℚ)))).entry
          (((i % 2) * (4 / 2) + i / 2) * 2 + c) =
        (PyArr.mk true .float32 [4, 2] (fun n => (n : ℚ))).entry (i * 2 + c) :=
  c8_interleave_row_mapping (PyArr.mk true .float32 [4, 2] (fun n => (n : ℚ)))
    2 4 2
    (PyArr.mk true .float32 [2, 2, 2] (transpose102 2 2 2 (fun n => (n : ℚ))))
    rfl ⟨2, rfl⟩ (by norm_num) rfl

theorem mapRoundup_err : ∀ {l : List (ℕ × ℤ)},
    (∃ pr ∈ l, pr.2 ≠ -1 ∧ (pr.2 ≤ 0 ∨ (pr.1 : ℤ) ≤ 0)) →
    ∃ e, mapRoundup l = .error e := by
  intro l
  induction l with
  | nil =>
    rintro ⟨pr, hpr, _⟩
    simp at hpr
  | cons q rest ih =>
    rintro ⟨pr, hpr, hcond⟩
    rcases List.mem_cons.mp hpr with heq | hmem
    · subst heq
      unfold mapRoundup
      rw [roundup_err hcond.1 hcond.2]
      exact ⟨_, rfl⟩
    · unfold mapRoundup
      cases hr : roundup_to_integer_multiple (q.1 : ℤ) q.2 with
      | error e => exact ⟨e, rfl⟩
      | ok y =>
        obtain ⟨e, he⟩ := ih ⟨pr, hmem, hcond⟩
        rw [he]
        exact ⟨e, rfl⟩

theorem mapRoundup_ok_spec : ∀ {l : List (ℕ × ℤ)} {ys : List ℤ},
    mapRoundup l = .ok ys →
    ys.length = l.length ∧
    ∀ i, i < l.length →
      roundup_to_integer_multiple ((l.getD i (0, 0)).1 : ℤ) (l.getD i (0, 0)).2 =
        .ok (ys.getD i 0) := by
  intro l
  induction l with
  | nil =>
    intro ys h
    unfold mapRoundup at h
    injection h with h
    subst h
    exact ⟨rfl, fun i hi => absurd hi (by simp)⟩
  | cons q rest ih =>
    intro ys h
    unfold mapRoundup at h
    cases hr : roundup_to_integer_multiple (q.1 : ℤ) q.2 with
    | error e => rw [hr] at h; simp at h
    | ok y =>
      rw [hr] at h
      cases hm : mapRoundup rest with
      | error e => rw [hm] at h; simp at h
      | ok ys0 =>
        rw [hm] at h
        dsimp only at h
        injection h with h
        subst h
        obtain ⟨hlen0, hspec⟩ := ih hm
        refine ⟨by simp [hlen0], ?_⟩
        intro i hi
        cases i with
        | zero => simpa using hr
        | succ j =>
          simp only [List.getD_cons_succ]
          exact hspec j (by simpa using hi)

/-- C9 (amended): `pad_tensor_to_multiple_of` fails whenever some
dimension's factor is not `-1` and is nonpositive, and whenever some
dimension's pre-padding size is 0 while its factor is not `-1` (a factor of
`-1` returns the size before the positivity assertion, so a zero-size
dimension with factor `-1` does NOT fail); on success, each dimension's
target size is the smallest integer multiple of that dimension's factor that
is at least the current size, and is unchanged when the factor is `-1`. -/
theorem c9_pad_to_multiple (a : PyArr) (fs : List ℤ) (val : ℚ) (dp : Bool)
    (hlen : a.shape.length = fs.length) :
    ((∃ pr ∈ a.shape.zip fs, pr.2 ≠ -1 ∧ (pr.2 ≤ 0 ∨ (pr.1 : ℤ) ≤ 0)) →
      ∃ e, pad_tensor_to_multiple_of a fs val dp = .error e) ∧
    (∀ out, pad_tensor_to_multiple_of a fs val dp = .ok out →
      out.shape.length = fs.length ∧
      ∀ i, i < fs.length →
        (fs.getD i 0 = -1 → out.shape.getD i 0 = a.shape.getD i 0) ∧
        (fs.getD i 0 ≠ -1 →
          fs.getD i 0 ∣ (out.shape.getD i 0 : ℤ) ∧
          (a.shape.getD i 0 : ℤ) ≤ (out.shape.getD i 0 : ℤ) ∧
          ∀ y : ℤ, fs.getD i 0 ∣ y → (a.shape.getD i 0 : ℤ) ≤ y →
            (out.shape.getD i 0 : ℤ) ≤ y)) := by
  have hsh := asarray_float_shape a
  constructor
  · intro hex
    unfold pad_tensor_to_multiple_of
    rw [hsh, if_neg (by rw [hlen]; simp)]
    obtain ⟨e, he⟩ := mapRoundup_err hex
    rw [he]
    exact ⟨e, rfl⟩
  · intro out hout
    unfold pad_tensor_to_multiple_of at hout
    rw [hsh, if_neg (by rw [hlen]; simp)] at hout
    cases hm : mapRoundup (a.shape.zip fs) with
    | error e => rw [hm] at hout; simp at hout
    | ok desired =>
      rw [hm] at hout
      dsimp only at hout
      injection hout with hout
      subst hout
      obtain ⟨hdlen, hspec⟩ := mapRoundup_ok_spec hm
      have hzlen : (a.shape.zip fs).length = fs.length := by
        rw [List.length_zip, hlen, min_self]
      constructor
      · simp [hdlen, hzlen]
      · intro i hi
        have hiz : i < (a.shape.zip fs).length := by rw [hzlen]; exact hi
        have hia : i < a.shape.length := by rw [hlen]; exact hi
        have hgetzip : (a.shape.zip fs).getD i (0, 0) =
            (a.shape.getD i 0, fs.getD i 0) := by
          rw [List.getD_eq_getElem _ _ hiz, List.getElem_zip,
            List.getD_eq_getElem _ _ hia, List.getD_eq_getElem _ _ hi]
        have hri := hspec i hiz
        rw [hgetzip] at hri
        have hid : i < desired.length := by rw [hdlen, hzlen]; exact hi
        have hout_getD : (desired.map Int.toNat).getD i 0 =
            (desired.getD i 0).toNat := by
          rw [List.getD_eq_getElem _ _ (by simpa using hid), List.getElem_map,
            List.getD_eq_getElem _ _ hid]
        have hnn : (0:ℤ) ≤ desired.getD i 0 :=
          roundup_ok_nonneg (Int.natCast_nonneg _) hri
        have hcast : (((desired.getD i 0).toNat : ℕ) : ℤ) = desired.getD i 0 :=
          Int.toNat_of_nonneg hnn
        constructor
        · intro hf
          rw [hf, roundup_neg1] at hri
          injection hri with hri
          dsimp only
          rw [hout_getD, ← hri]
          simp
        · intro hf
          obtain ⟨hdvd, hle, hleast⟩ := roundup_ok_least hf hri
          dsimp only
          rw [hout_getD, hcast]
          exact ⟨hdvd, hle, hleast⟩

/-- C9 counterexample: an array with a zero-size dimension whose factor is
`-1` is padded successfully (the `-1` early return precedes the `x > 0`
assertion), where the claim as stated demands failure for any nonpositive
pre-padding size. -/
theorem c9_counterexample :
    (pad_tensor_to_multiple_of (PyArr.mk true .float32 [0] (fun _ => 0)) [-1] 0
        false).toOption.map PyArr.shape = some [0] := by
  rfl

theorem c9_pad_to_multiple_witness :
    ((∃ pr ∈ [(5:ℕ), 3].zip [(4:ℤ), -1], pr.2 ≠ -1 ∧ (pr.2 ≤ 0 ∨ (pr.1 : ℤ) ≤ 0)) →
      ∃ e, pad_tensor_to_multiple_of
        (PyArr.mk true .float32 [5, 3] (fun n => (n : ℚ))) [4, -1] 0 false =
          .error e) ∧
    (∀ out, pad_tensor_to_multiple_of
        (PyArr.mk true .float32 [5, 3] (fun n => (n : ℚ))) [4, -1] 0 false =
          .ok out →
      out.shape.length = [(4:ℤ), -1].length ∧
      ∀ i, i < [(4:ℤ), -1].length →
        ([(4:ℤ), -1].getD i 0 = -1 →
          out.shape.getD i 0 = [(5:ℕ), 3].getD i 0) ∧
        ([(4:ℤ), -1].getD i 0 ≠ -1 →
          [(4:ℤ), -1].getD i 0 ∣ (out.shape.getD i 0 : ℤ) ∧
          ([(5:ℕ), 3].getD i 0 : ℤ) ≤ (out.shape.getD i 0 : ℤ) ∧
          ∀ y : ℤ, [(4:ℤ), -1].getD i 0 ∣ y →
            ([(5:ℕ), 3].getD i 0 : ℤ) ≤ y →
            (out.shape.getD i 0 : ℤ) ≤ y)) :=
  c9_pad_to_multiple (PyArr.mk true .float32 [5, 3] (fun n => (n : ℚ)))
    [4, -1] 0 false rfl

theorem asarray_float_dtype (a : PyArr) :
    ((asarray_float a).dtype = .float32 ∨ (asarray_float a).dtype = .float16) ∧
    (¬(a.is_nd = true ∧ (a.dtype = .float32 ∨ a.dtype = .float16)) →
      (asarray_float a).dtype = .float32) := by
  unfold asarray_float
  by_cases hc : a.is_nd = true ∧ (a.dtype = .float32 ∨ a.dtype = .float16)
  · rw [if_pos hc]
    exact ⟨hc.2, fun hn => absurd hc hn⟩
  · rw [if_neg hc]
    exact ⟨Or.inl rfl, fun _ => rfl⟩

/-- C10: every array returned by the interleave or the padding utility has a
floating-point storage dtype, and any input that is not already a float32 or
float16 ndarray (an integer-typed array, or a nested list) is coerced to
float32. -/
theorem c10_float_container :
    (∀ (a : PyArr) (p : ℕ) (out : PyArr),
      interleave_matrix_outer_dim_from_partitions a p = .ok out →
      (out.dtype = .float32 ∨ out.dtype = .float16) ∧
      (¬(a.is_nd = true ∧ (a.dtype = .float32 ∨ a.dtype = .float16)) →
        out.dtype = .float32)) ∧
    (∀ (a : PyArr) (fs : List ℤ) (val : ℚ) (dp : Bool) (out : PyArr),
      pad_tensor_to_multiple_of a fs val dp = .ok out →
      (out.dtype = .float32 ∨ out.dtype = .float16) ∧
      (¬(a.is_nd = true ∧ (a.dtype = .float32 ∨ a.dtype = .float16)) →
        out.dtype = .float32)) := by
  constructor
  · intro a p out hok
    unfold interleave_matrix_outer_dim_from_partitions at hok
    split at hok
    · simp at hok
    · split at hok
      · simp at hok
      · injection hok with hok
        subst hok
        exact asarray_float_dtype a
  · intro a fs val dp out hok
    unfold pad_tensor_to_multiple_of at hok
    split at hok
    · simp at hok
    · split at hok
      · simp at hok
      · injection hok with hok
        subst hok
        exact asarray_float_dtype a

theorem c10_float_container_witness :
    ((PyArr.mk true NPDtype.float32 [1, 2 / 1, 2]
        (transpose102 (2 / 1) 1 2 (fun n => (n : ℚ)))).dtype = .float32 ∨
     (PyArr.mk true NPDtype.float32 [1, 2 / 1, 2]
        (transpose102 (2 / 1) 1 2 (fun n => (n : ℚ)))).dtype = .float16) ∧
    (¬((false = true) ∧ (NPDtype.int64 = .float32 ∨ NPDtype.int64 = .float16)) →
      (PyArr.mk true NPDtype.float32 [1, 2 / 1, 2]
        (transpose102 (2 / 1) 1 2 (fun n => (n : ℚ)))).dtype = .float32) :=
  c10_float_container.1 (PyArr.mk false .int64 [2, 2] (fun n => (n : ℚ))) 1
    (PyArr.mk true NPDtype.float32 [1, 2 / 1, 2]
      (transpose102 (2 / 1) 1 2 (fun n => (n : ℚ)))) rfl
